import Mathlib

set_option maxHeartbeats 1000000

/-!
Verification of the Go-board rules engine (`rules/rules.go`): string
detection by work-list flood fill, liberty counting, and capture /
self-capture arbitration.  The executable definitions below are direct
translations of the Go source; the `Finset`/`Relation` definitions state
the abstract properties they are checked against.
-/

/-- Stone models `models.Stone`: a coordinate pair plus a color string.
The empty string is Go's zero value for the field and denotes an empty
point. -/
@[ext]
structure Stone where
  X : Int
  Y : Int
  Color : String
  deriving DecidableEq, Repr

/-- Board models `models.Board`: a square size and the collection of
stones placed on the board. -/
structure Board where
  Size : Int
  Stones : List Stone
  deriving DecidableEq, Repr

/-- A String is a chain of Stones on a Go Board (`type String []models.Stone`
in rules.go). -/
abbrev GoString := List Stone

/-- GoError models the error result of `Run`; `selfCapture` is the
`selfCaptureError` value ("Move is suicidal"). -/
inductive GoError where
  | selfCapture
  deriving DecidableEq, Repr

/-- coordOf projects a stone to its coordinate pair. -/
def coordOf (s : Stone) : Int × Int := (s.X, s.Y)

/-- find models rules.go `find`: the first stone in the list whose
coordinates match those of the probe stone, if any. -/
def find (stones : List Stone) (stone : Stone) : Option Stone :=
  stones.find? fun s => s.X == stone.X && s.Y == stone.Y

/-- contains models rules.go `contains`: membership by full structural
equality (`reflect.DeepEqual` on Stone values). -/
def contains (list : List Stone) (item : Stone) : Bool :=
  list.any fun v => v == item

/-- containsString models rules.go `containsString`: membership of a whole
String by structural equality. -/
def containsString (strings : List GoString) (str : GoString) : Bool :=
  strings.any fun s => s == str

/-- isInbounds models rules.go `isInbounds`. -/
def isInbounds (size : Int) (stone : Stone) : Bool :=
  if stone.X < 0 || stone.X ≥ size then false
  else if stone.Y < 0 || stone.Y ≥ size then false
  else true

/-- resolveStone is the body of the loop in `getNearby`: a candidate
position resolves to the existing stone at its coordinate when one exists,
otherwise to the candidate itself (the synthesized empty stone). -/
def resolveStone (stones : List Stone) (s : Stone) : Stone :=
  (find stones s).getD s

/-- getNearby models rules.go `getNearby`: the up/down/left/right
candidates in source order, bounds-filtered, each resolved against the
board. -/
def getNearby (b : Board) (stone : Stone) : List Stone :=
  let up : Stone := ⟨stone.X, stone.Y + 1, ""⟩
  let down : Stone := ⟨stone.X, stone.Y - 1, ""⟩
  let left : Stone := ⟨stone.X - 1, stone.Y, ""⟩
  let right : Stone := ⟨stone.X + 1, stone.Y, ""⟩
  ([up, down, left, right].filter fun s => isInbounds b.Size s).map
    fun s => resolveStone b.Stones s

/-- getStringAux models the work-list loop of rules.go `getString`.  The
Go slice `acc` is popped at its end, so here the list head is the stack
top and pushing `nearby` prepends its reverse.  `fuel` bounds the number
of iterations; `none` means the fuel ran out, which is proved impossible
for the fuel used by `getString`. -/
def getStringAux (b : Board) (stone : Stone) :
    Nat → List Stone → GoString → Option GoString
  | _, [], str => some str
  | 0, _ :: _, _ => none
  | n + 1, s :: rest, str =>
    if contains str s = false ∧ s.Color = stone.Color then
      getStringAux b stone n ((getNearby b s).reverse ++ rest) (str ++ [s])
    else
      getStringAux b stone n rest str

/-- getStringFuel: an iteration bound for the `getString` loop, sufficient
because each resolvable board position enters the result at most once and
neighbors are pushed only on a new addition. -/
def getStringFuel (b : Board) : Nat :=
  5 * (b.Size.toNat * b.Size.toNat + 2) + 1

/-- getString models rules.go `getString`: flood fill from the seed stone. -/
def getString (b : Board) (stone : Stone) : GoString :=
  (getStringAux b stone (getStringFuel b) [stone] []).getD []

/-- stoneLe is the (Y, then X) lexicographic order used by the
`sort.Slice` call in rules.go `getStrings`. -/
def stoneLe (a c : Stone) : Prop :=
  a.Y < c.Y ∨ (a.Y = c.Y ∧ a.X ≤ c.X)

instance : DecidableRel stoneLe := fun a c => by
  unfold stoneLe; infer_instance

instance : IsTotal Stone stoneLe :=
  ⟨by intro a c; unfold stoneLe; omega⟩

instance : IsTrans Stone stoneLe :=
  ⟨by intro a c e h1 h2; unfold stoneLe at *; omega⟩

/-- sortString canonicalizes a String by (Y, X), modelling the
`sort.Slice` call in rules.go `getStrings`; on strings with pairwise
distinct coordinates every correct sort produces this unique result. -/
def sortString (str : GoString) : GoString :=
  str.insertionSort stoneLe

/-- getStringsAux models the loop of rules.go `getStrings`: for each board
stone compute and canonicalize its string, appending it unless an equal
string was already collected. -/
def getStringsAux (b : Board) : List Stone → List GoString → List GoString
  | [], acc => acc
  | s :: rest, acc =>
    let newString := sortString (getString b s)
    getStringsAux b rest
      (if containsString acc newString then acc else acc ++ [newString])

/-- getStrings models rules.go `getStrings`. -/
def getStrings (b : Board) : List GoString :=
  getStringsAux b b.Stones []

/-- addLiberty models the inner loop of rules.go `findLiberties`: empty
resolved neighbors are appended unless already recorded. -/
def addLiberty : List Stone → List Stone → List Stone
  | [], liberties => liberties
  | ns :: rest, liberties =>
    if ns.Color = "" ∧ contains liberties ns = false then
      addLiberty rest (liberties ++ [ns])
    else
      addLiberty rest liberties

/-- findLibertiesAux models the outer loop of rules.go `findLiberties`. -/
def findLibertiesAux (b : Board) : GoString → List Stone → List Stone
  | [], liberties => liberties
  | s :: rest, liberties =>
    findLibertiesAux b rest (addLiberty (getNearby b s) liberties)

/-- findLiberties models rules.go `findLiberties`: the list of distinct
empty adjacent points of a String, and its length. -/
def findLiberties (b : Board) (str : GoString) : List Stone × Nat :=
  let liberties := findLibertiesAux b str []
  (liberties, liberties.length)

/-- capturedStrings is the `toRemove` list computed in rules.go `Run`:
the board's Strings whose liberty count is zero. -/
def capturedStrings (b : Board) : List GoString :=
  (getStrings b).filter fun str => (findLiberties b str).2 == 0

/-- Run models rules.go `Run`, returning the list of Strings to remove
together with the optional error (Go's pair of return values). -/
def Run (b : Board) (stone : Stone) : List GoString × Option GoError :=
  let toRemove := capturedStrings b
  if toRemove.length = 1 ∧ contains toRemove.headI stone = true then
    ([], some GoError.selfCapture)
  else if toRemove.length > 1 then
    (toRemove.filter fun str => contains str stone = false, none)
  else
    (toRemove, none)

/-- neighborCoords: the four orthogonally adjacent coordinates of a
coordinate, in the up/down/left/right order of `getNearby`. -/
def neighborCoords (c : Int × Int) : List (Int × Int) :=
  [(c.1, c.2 + 1), (c.1, c.2 - 1), (c.1 - 1, c.2), (c.1 + 1, c.2)]

/-- adjacentC: 4-directional adjacency of coordinates. -/
def adjacentC (a c : Int × Int) : Prop := c ∈ neighborCoords a

instance : ∀ a c, Decidable (adjacentC a c) := fun a c => by
  unfold adjacentC; infer_instance

/-- inBoundsC: the bounds check of `isInbounds` on a bare coordinate. -/
def inBoundsC (size : Int) (c : Int × Int) : Bool :=
  isInbounds size ⟨c.1, c.2, ""⟩

/-- resolveAt: resolution of a bare coordinate against the board stones. -/
def resolveAt (stones : List Stone) (c : Int × Int) : Stone :=
  resolveStone stones ⟨c.1, c.2, ""⟩

/-- resolvedColor: the color the board shows at a coordinate; the empty
string when the point is unoccupied. -/
def resolvedColor (stones : List Stone) (c : Int × Int) : String :=
  (resolveAt stones c).Color

/-- libertyFinset: the set of distinct in-bounds empty points adjacent to
at least one member of a String — the specification-level liberty set. -/
def libertyFinset (b : Board) (str : GoString) : Finset (Int × Int) :=
  (str.flatMap fun s => (neighborCoords (coordOf s)).filter fun c =>
    inBoundsC b.Size c && resolvedColor b.Stones c == "").toFinset

/-- stoneAdj: two stones of the board that are orthogonally adjacent and
share a color — one link of a chain. -/
def stoneAdj (b : Board) (s t : Stone) : Prop :=
  s ∈ b.Stones ∧ t ∈ b.Stones ∧ s.Color = t.Color ∧
    adjacentC (coordOf s) (coordOf t)

/-- Reach: connected to the seed by a chain of adjacent same-colored board
stones. -/
def Reach (b : Board) : Stone → Stone → Prop :=
  Relation.ReflTransGen (stoneAdj b)

/-- gridCoords: all in-bounds coordinates of a board of the given size. -/
def gridCoords (size : Int) : Finset (Int × Int) :=
  Finset.Ico 0 size ×ˢ Finset.Ico 0 size

/-- candSet: every stone value the `getString` loop can ever add — the
seed plus the resolution of every in-bounds coordinate. -/
def candSet (b : Board) (stone : Stone) : Finset Stone :=
  insert stone ((gridCoords b.Size).image fun c => resolveAt b.Stones c)

/-- containsCoord checks membership by coordinates alone.  Modelled from
the spec: visited tracking "by coordinate equality, not full
structural/reflective equality". -/
def containsCoord (list : List Stone) (item : Stone) : Bool :=
  list.any fun v => v.X == item.X && v.Y == item.Y

/-- getStringCoordAux: the `getString` loop with its membership test
replaced by the coordinate-keyed one (spec-side variant for the
refinement comparison). -/
def getStringCoordAux (b : Board) (stone : Stone) :
    Nat → List Stone → GoString → Option GoString
  | _, [], str => some str
  | 0, _ :: _, _ => none
  | n + 1, s :: rest, str =>
    if containsCoord str s = false ∧ s.Color = stone.Color then
      getStringCoordAux b stone n ((getNearby b s).reverse ++ rest) (str ++ [s])
    else
      getStringCoordAux b stone n rest str

/-- getStringCoord: `getString` with coordinate-keyed visited tracking. -/
def getStringCoord (b : Board) (stone : Stone) : GoString :=
  (getStringCoordAux b stone (getStringFuel b) [stone] []).getD []

/-- removeStoneFromBoard: the board with one stone removed, as the caller
would apply a capture. -/
def removeStoneFromBoard (b : Board) (s : Stone) : Board :=
  ⟨b.Size, b.Stones.erase s⟩

/-- addStoneToBoard: the board with one stone appended, as the caller
applies a placement. -/
def addStoneToBoard (b : Board) (s : Stone) : Board :=
  ⟨b.Size, b.Stones ++ [s]⟩

/-- distinctCoords: no two board stones share a coordinate. -/
def distinctCoords (b : Board) : Prop :=
  (b.Stones.map coordOf).Nodup

/-- allInbounds: every board stone lies within the board bounds. -/
def allInbounds (b : Board) : Prop :=
  ∀ s ∈ b.Stones, isInbounds b.Size s = true

/-- allOccupied: every board stone carries a player color. -/
def allOccupied (b : Board) : Prop :=
  ∀ s ∈ b.Stones, s.Color ≠ ""

instance (b : Board) : Decidable (distinctCoords b) := by
  unfold distinctCoords; infer_instance

instance (b : Board) : Decidable (allInbounds b) := by
  unfold allInbounds; infer_instance

instance (b : Board) : Decidable (allOccupied b) := by
  unfold allOccupied; infer_instance

/-! ### Basic membership and resolution lemmas -/

theorem contains_iff (l : List Stone) (x : Stone) :
    contains l x = true ↔ x ∈ l := by
  simp [contains, List.any_eq_true, beq_iff_eq]

theorem contains_false_iff (l : List Stone) (x : Stone) :
    contains l x = false ↔ x ∉ l := by
  rw [← Bool.not_eq_true, not_iff_not]; exact contains_iff l x

theorem containsString_iff (l : List GoString) (x : GoString) :
    containsString l x = true ↔ x ∈ l := by
  simp [containsString, List.any_eq_true, beq_iff_eq]

theorem find_eq_some (stones : List Stone) (probe t : Stone)
    (h : find stones probe = some t) :
    t ∈ stones ∧ t.X = probe.X ∧ t.Y = probe.Y := by
  unfold find at h
  have hmem := List.mem_of_find?_eq_some h
  have hp := List.find?_some h
  simp only [Bool.and_eq_true, beq_iff_eq] at hp
  exact ⟨hmem, hp.1, hp.2⟩

theorem find_eq_none (stones : List Stone) (probe : Stone)
    (h : find stones probe = none) :
    ∀ t ∈ stones, ¬(t.X = probe.X ∧ t.Y = probe.Y) := by
  unfold find at h
  intro t ht hc
  have := List.find?_eq_none.mp h t ht
  simp only [Bool.and_eq_true, beq_iff_eq] at this
  exact this ⟨hc.1, hc.2⟩

theorem resolveStone_coord (stones : List Stone) (s : Stone) :
    (resolveStone stones s).X = s.X ∧ (resolveStone stones s).Y = s.Y := by
  unfold resolveStone
  cases h : find stones s with
  | none => simp
  | some t => simpa using ⟨(find_eq_some stones s t h).2.1, (find_eq_some stones s t h).2.2⟩

theorem resolveStone_cases (stones : List Stone) (s : Stone) :
    (resolveStone stones s ∈ stones) ∨
      (resolveStone stones s = s ∧ find stones s = none) := by
  unfold resolveStone
  cases h : find stones s with
  | none => simp
  | some t => simpa using (find_eq_some stones s t h).1

theorem resolveAt_coordOf (stones : List Stone) (c : Int × Int) :
    coordOf (resolveAt stones c) = c := by
  unfold resolveAt coordOf
  have := resolveStone_coord stones ⟨c.1, c.2, ""⟩
  simp only [this.1, this.2]

theorem resolvedColor_eq (stones : List Stone) (c : Int × Int) :
    resolvedColor stones c = (resolveAt stones c).Color := rfl

theorem mem_getNearby {b : Board} {p t : Stone} :
    t ∈ getNearby b p ↔ ∃ c ∈ neighborCoords (coordOf p),
      inBoundsC b.Size c = true ∧ t = resolveAt b.Stones c := by
  simp only [getNearby, List.mem_map, List.mem_filter, neighborCoords, coordOf,
    inBoundsC, resolveAt, List.mem_cons, List.not_mem_nil, or_false]
  constructor
  · rintro ⟨cand, ⟨hmem, hin⟩, rfl⟩
    rcases hmem with rfl | rfl | rfl | rfl
    · exact ⟨(p.X, p.Y + 1), Or.inl rfl, hin, rfl⟩
    · exact ⟨(p.X, p.Y - 1), Or.inr (Or.inl rfl), hin, rfl⟩
    · exact ⟨(p.X - 1, p.Y), Or.inr (Or.inr (Or.inl rfl)), hin, rfl⟩
    · exact ⟨(p.X + 1, p.Y), Or.inr (Or.inr (Or.inr rfl)), hin, rfl⟩
  · rintro ⟨c, hmem, hin, rfl⟩
    rcases hmem with rfl | rfl | rfl | rfl
    · exact ⟨⟨p.X, p.Y + 1, ""⟩, ⟨Or.inl rfl, hin⟩, rfl⟩
    · exact ⟨⟨p.X, p.Y - 1, ""⟩, ⟨Or.inr (Or.inl rfl), hin⟩, rfl⟩
    · exact ⟨⟨p.X - 1, p.Y, ""⟩, ⟨Or.inr (Or.inr (Or.inl rfl)), hin⟩, rfl⟩
    · exact ⟨⟨p.X + 1, p.Y, ""⟩, ⟨Or.inr (Or.inr (Or.inr rfl)), hin⟩, rfl⟩

theorem getNearby_adjacent {b : Board} {p t : Stone} (h : t ∈ getNearby b p) :
    adjacentC (coordOf p) (coordOf t) := by
  rcases mem_getNearby.mp h with ⟨c, hc, _, rfl⟩
  unfold adjacentC
  rwa [resolveAt_coordOf]

theorem getNearby_inbounds {b : Board} {p t : Stone} (h : t ∈ getNearby b p) :
    isInbounds b.Size t = true := by
  rcases mem_getNearby.mp h with ⟨c, _, hin, rfl⟩
  have hc := resolveStone_coord b.Stones ⟨c.1, c.2, ""⟩
  unfold inBoundsC at hin
  unfold resolveAt
  unfold isInbounds at *
  rw [show (resolveStone b.Stones ⟨c.1, c.2, ""⟩).X = c.1 from hc.1,
    show (resolveStone b.Stones ⟨c.1, c.2, ""⟩).Y = c.2 from hc.2]
  simpa using hin

theorem getNearby_resolved {b : Board} {p t : Stone} (h : t ∈ getNearby b p) :
    t = resolveAt b.Stones (coordOf t) := by
  rcases mem_getNearby.mp h with ⟨c, _, _, rfl⟩
  rw [resolveAt_coordOf]

theorem getNearby_mem_stones {b : Board} {p t : Stone} (h : t ∈ getNearby b p)
    (hc : t.Color ≠ "") : t ∈ b.Stones := by
  rcases mem_getNearby.mp h with ⟨c, _, _, rfl⟩
  unfold resolveAt at *
  rcases resolveStone_cases b.Stones ⟨c.1, c.2, ""⟩ with hmem | ⟨heq, _⟩
  · exact hmem
  · rw [heq] at hc; simp at hc

theorem adjacentC_symm {a c : Int × Int} (h : adjacentC a c) : adjacentC c a := by
  unfold adjacentC neighborCoords at *
  simp only [List.mem_cons, List.not_mem_nil, or_false] at *
  obtain ⟨a1, a2⟩ := a
  obtain ⟨c1, c2⟩ := c
  simp only [Prod.mk.injEq] at *
  omega

theorem stoneAdj_symm {b : Board} {s t : Stone} (h : stoneAdj b s t) :
    stoneAdj b t s := by
  obtain ⟨h1, h2, h3, h4⟩ := h
  exact ⟨h2, h1, h3.symm, adjacentC_symm h4⟩

theorem find_eq_of_distinct {l : List Stone} {t probe : Stone}
    (hnd : (l.map coordOf).Nodup) (ht : t ∈ l) (hx : t.X = probe.X)
    (hy : t.Y = probe.Y) : find l probe = some t := by
  induction l with
  | nil => simp at ht
  | cons h rest ih =>
    simp only [List.map_cons, List.nodup_cons] at hnd
    rcases List.mem_cons.mp ht with rfl | hmem
    · unfold find
      simp [List.find?_cons, hx, hy]
    · have hne : ¬(h.X = probe.X ∧ h.Y = probe.Y) := by
        rintro ⟨hhx, hhy⟩
        exact hnd.1 (by
          refine List.mem_map.mpr ⟨t, hmem, ?_⟩
          unfold coordOf
          rw [hx, hy, hhx, hhy])
      unfold find at *
      rw [List.find?_cons_of_neg, ih hnd.2 hmem]
      simp only [Bool.and_eq_true, beq_iff_eq]
      exact hne

theorem mem_getNearby_of_adjacent {b : Board} {p t : Stone}
    (hnd : distinctCoords b) (ht : t ∈ b.Stones)
    (hin : isInbounds b.Size t = true)
    (hadj : adjacentC (coordOf p) (coordOf t)) : t ∈ getNearby b p := by
  refine mem_getNearby.mpr ⟨coordOf t, hadj, ?_, ?_⟩
  · unfold inBoundsC coordOf
    unfold isInbounds at *
    simpa using hin
  · unfold resolveAt resolveStone coordOf
    show t = (find b.Stones ⟨t.X, t.Y, ""⟩).getD ⟨t.X, t.Y, ""⟩
    rw [@find_eq_of_distinct b.Stones t ⟨t.X, t.Y, ""⟩ hnd ht rfl rfl]
    rfl

/-! ### Termination of the getString work list -/

theorem getNearby_length (b : Board) (p : Stone) :
    (getNearby b p).length ≤ 4 := by
  unfold getNearby
  simp only [List.length_map]
  have := List.length_filter_le
    (fun s => isInbounds b.Size s)
    [(⟨p.X, p.Y + 1, ""⟩ : Stone), ⟨p.X, p.Y - 1, ""⟩, ⟨p.X - 1, p.Y, ""⟩, ⟨p.X + 1, p.Y, ""⟩]
  simpa using this

theorem getNearby_mem_candSet {b : Board} {st p t : Stone}
    (h : t ∈ getNearby b p) : t ∈ candSet b st := by
  rcases mem_getNearby.mp h with ⟨c, _, hin, rfl⟩
  unfold candSet
  refine Finset.mem_insert_of_mem (Finset.mem_image.mpr ⟨c, ?_, rfl⟩)
  unfold gridCoords
  unfold inBoundsC isInbounds at hin
  simp only [Finset.mem_product, Finset.mem_Ico]
  by_cases h1 : c.1 < 0 ∨ c.1 ≥ b.Size
  · simp [h1] at hin
  · by_cases h2 : c.2 < 0 ∨ c.2 ≥ b.Size
    · rw [if_neg] at hin
      · simp [h2] at hin
      · simpa using h1
    · push_neg at h1 h2
      exact ⟨⟨h1.1, h1.2⟩, h2.1, h2.2⟩

theorem candSet_card_le (b : Board) (st : Stone) :
    (candSet b st).card ≤ b.Size.toNat * b.Size.toNat + 1 := by
  unfold candSet
  calc (insert st ((gridCoords b.Size).image fun c => resolveAt b.Stones c)).card
      ≤ ((gridCoords b.Size).image fun c => resolveAt b.Stones c).card + 1 :=
        Finset.card_insert_le _ _
    _ ≤ (gridCoords b.Size).card + 1 := by
        have := Finset.card_image_le
          (f := fun c => resolveAt b.Stones c) (s := gridCoords b.Size)
        omega
    _ = b.Size.toNat * b.Size.toNat + 1 := by
        unfold gridCoords
        rw [Finset.card_product, Int.card_Ico]
        simp

theorem nodup_length_le_card {l : List Stone} {s : Finset Stone}
    (hnd : l.Nodup) (hsub : ∀ x ∈ l, x ∈ s) : l.length ≤ s.card := by
  rw [← List.toFinset_card_of_nodup hnd]
  exact Finset.card_le_card fun x hx => hsub x (List.mem_toFinset.mp hx)

theorem getStringAux_total (b : Board) (st : Stone) : ∀ fuel acc str,
    (∀ s ∈ acc, s ∈ candSet b st) → (∀ s ∈ str, s ∈ candSet b st) →
    str.Nodup →
    acc.length + 5 * ((candSet b st).card + 1 - str.length) ≤ fuel →
    (getStringAux b st fuel acc str).isSome = true := by
  intro fuel
  induction fuel with
  | zero =>
    intro acc str hacc hstr hnd hm
    match acc with
    | [] => rfl
    | s :: rest =>
      exfalso
      have hlen := nodup_length_le_card hnd hstr
      simp only [List.length_cons] at hm
      omega
  | succ n ih =>
    intro acc str hacc hstr hnd hm
    match acc with
    | [] => rfl
    | s :: rest =>
      have hs : s ∈ candSet b st := hacc s (List.mem_cons_self s rest)
      have hrest : ∀ x ∈ rest, x ∈ candSet b st :=
        fun x hx => hacc x (List.mem_cons_of_mem s hx)
      show (getStringAux b st (n + 1) (s :: rest) str).isSome = true
      rw [getStringAux]
      split
      · next hguard =>
        apply ih
        · intro x hx
          rcases List.mem_append.mp hx with hx | hx
          · exact getNearby_mem_candSet (List.mem_reverse.mp hx)
          · exact hrest x hx
        · intro x hx
          rcases List.mem_append.mp hx with hx | hx
          · exact hstr x hx
          · rw [List.mem_singleton.mp hx]; exact hs
        · rw [List.nodup_append]
          refine ⟨hnd, List.nodup_singleton s, ?_⟩
          intro x hx hx'
          rw [List.mem_singleton.mp hx'] at hx
          exact (contains_false_iff str s).mp hguard.1 hx
        · have hlen1 : (str ++ [s]).length ≤ (candSet b st).card := by
            apply nodup_length_le_card
            · rw [List.nodup_append]
              refine ⟨hnd, List.nodup_singleton s, ?_⟩
              intro x hx hx'
              rw [List.mem_singleton.mp hx'] at hx
              exact (contains_false_iff str s).mp hguard.1 hx
            · intro x hx
              rcases List.mem_append.mp hx with hx | hx
              · exact hstr x hx
              · rw [List.mem_singleton.mp hx]; exact hs
          have hnear := getNearby_length b s
          simp only [List.length_append, List.length_reverse, List.length_cons,
            List.length_singleton] at *
          omega
      · next hguard =>
        apply ih rest str hrest hstr hnd
        simp only [List.length_cons] at hm
        omega

theorem getString_spec (b : Board) (st : Stone) :
    getStringAux b st (getStringFuel b) [st] [] = some (getString b st) := by
  have htot := getStringAux_total b st (getStringFuel b) [st] []
    (by intro s hs; rw [List.mem_singleton.mp hs]; exact Finset.mem_insert_self _ _)
    (by intro s hs; simp at hs)
    List.nodup_nil
    (by
      have := candSet_card_le b st
      unfold getStringFuel
      simp only [List.length_singleton, List.length_nil]
      omega)
  rcases Option.isSome_iff_exists.mp htot with ⟨res, hres⟩
  rw [hres]
  unfold getString
  rw [hres]
  rfl

/-! ### Soundness, closure and completeness of the flood fill -/

theorem getStringAux_post (b : Board) (st : Stone) (hst : st ∈ b.Stones)
    (hc : st.Color ≠ "") : ∀ fuel acc str res,
    getStringAux b st fuel acc str = some res →
    (∀ s ∈ str, s.Color = st.Color ∧ s ∈ b.Stones ∧ Reach b st s) →
    str.Nodup →
    (∀ s ∈ acc, s.Color = st.Color → s ∈ b.Stones ∧ Reach b st s) →
    (st ∈ str ∨ st ∈ acc) →
    (∀ p ∈ str, ∀ t ∈ getNearby b p, t.Color = st.Color → t ∈ str ∨ t ∈ acc) →
    (∀ s ∈ res, s.Color = st.Color ∧ s ∈ b.Stones ∧ Reach b st s) ∧
      res.Nodup ∧ st ∈ res ∧
      (∀ p ∈ res, ∀ t ∈ getNearby b p, t.Color = st.Color → t ∈ res) := by
  intro fuel
  induction fuel with
  | zero =>
    intro acc str res hrun hstr hnd hacc hseed hclo
    match acc with
    | [] =>
      simp only [getStringAux, Option.some.injEq] at hrun
      subst hrun
      refine ⟨hstr, hnd, ?_, ?_⟩
      · rcases hseed with h | h
        · exact h
        · simp at h
      · intro p hp t ht hcol
        rcases hclo p hp t ht hcol with h | h
        · exact h
        · simp at h
    | s :: rest => simp [getStringAux] at hrun
  | succ n ih =>
    intro acc str res hrun hstr hnd hacc hseed hclo
    match acc with
    | [] =>
      simp only [getStringAux, Option.some.injEq] at hrun
      subst hrun
      refine ⟨hstr, hnd, ?_, ?_⟩
      · rcases hseed with h | h
        · exact h
        · simp at h
      · intro p hp t ht hcol
        rcases hclo p hp t ht hcol with h | h
        · exact h
        · simp at h
    | s :: rest =>
      rw [getStringAux] at hrun
      split at hrun
      · next hguard =>
        have hs := hacc s (List.mem_cons_self s rest) hguard.2
        apply ih _ _ _ hrun
        · intro x hx
          rcases List.mem_append.mp hx with hx | hx
          · exact hstr x hx
          · rw [List.mem_singleton.mp hx]
            exact ⟨hguard.2, hs⟩
        · rw [List.nodup_append]
          refine ⟨hnd, List.nodup_singleton s, ?_⟩
          intro x hx hx'
          rw [List.mem_singleton.mp hx'] at hx
          exact (contains_false_iff str s).mp hguard.1 hx
        · intro x hx hxcol
          rcases List.mem_append.mp hx with hx | hx
          · have hxn := List.mem_reverse.mp hx
            have hxs : x ∈ b.Stones := getNearby_mem_stones hxn (by rw [hxcol]; exact hc)
            refine ⟨hxs, Relation.ReflTransGen.tail hs.2 ?_⟩
            exact ⟨hs.1, hxs, by rw [hguard.2, hxcol], getNearby_adjacent hxn⟩
          · exact hacc x (List.mem_cons_of_mem s hx) hxcol
        · rcases hseed with h | h
          · exact Or.inl (List.mem_append_left _ h)
          · rcases List.mem_cons.mp h with rfl | h
            · exact Or.inl (List.mem_append_right _ (List.mem_singleton_self _))
            · exact Or.inr (List.mem_append_right _ h)
        · intro p hp t ht hcol
          rcases List.mem_append.mp hp with hp | hp
          · rcases hclo p hp t ht hcol with h | h
            · exact Or.inl (List.mem_append_left _ h)
            · rcases List.mem_cons.mp h with rfl | h
              · exact Or.inl (List.mem_append_right _ (List.mem_singleton_self _))
              · exact Or.inr (List.mem_append_right _ h)
          · rw [List.mem_singleton.mp hp] at ht
            exact Or.inr (List.mem_append_left _ (List.mem_reverse.mpr ht))
      · next hguard =>
        rw [Classical.not_and_iff_or_not_not] at hguard
        apply ih _ _ _ hrun hstr hnd
        · intro x hx hxcol
          exact hacc x (List.mem_cons_of_mem s hx) hxcol
        · rcases hseed with h | h
          · exact Or.inl h
          · rcases List.mem_cons.mp h with rfl | h
            · rcases hguard with h' | h'
              · rw [Bool.not_eq_false] at h'
                exact Or.inl ((contains_iff str st).mp h')
              · exact absurd rfl h'
            · exact Or.inr h
        · intro p hp t ht hcol
          rcases hclo p hp t ht hcol with h | h
          · exact Or.inl h
          · rcases List.mem_cons.mp h with rfl | h
            · rcases hguard with h' | h'
              · rw [Bool.not_eq_false] at h'
                exact Or.inl ((contains_iff str t).mp h')
              · exact absurd hcol h'
            · exact Or.inr h

theorem closed_set_complete (b : Board) (st : Stone) (h1 : allInbounds b)
    (h2 : distinctCoords b) (res : GoString) (hseed : st ∈ res)
    (hcolor : ∀ p ∈ res, p.Color = st.Color)
    (hclo : ∀ p ∈ res, ∀ t ∈ getNearby b p, t.Color = st.Color → t ∈ res) :
    ∀ t, Reach b st t → t ∈ res := by
  intro t hr
  induction hr with
  | refl => exact hseed
  | tail hr hadj ih =>
    obtain ⟨hu, ht, hcol, hadjc⟩ := hadj
    have hmem := mem_getNearby_of_adjacent h2 ht (h1 _ ht) hadjc
    exact hclo _ ih _ hmem (by rw [← hcol, hcolor _ ih])

theorem getString_sound (b : Board) (st : Stone) (hst : st ∈ b.Stones)
    (hc : st.Color ≠ "") :
    (∀ s ∈ getString b st, s.Color = st.Color ∧ s ∈ b.Stones ∧ Reach b st s) ∧
      (getString b st).Nodup ∧ st ∈ getString b st ∧
      (∀ p ∈ getString b st, ∀ t ∈ getNearby b p,
        t.Color = st.Color → t ∈ getString b st) := by
  have hrun := getString_spec b st
  exact getStringAux_post b st hst hc _ _ _ _ hrun
    (by intro s hs; simp at hs)
    List.nodup_nil
    (by
      intro s hs hcol
      rw [List.mem_singleton.mp hs]
      exact ⟨hst, Relation.ReflTransGen.refl⟩)
    (Or.inr (List.mem_singleton_self st))
    (by intro p hp; simp at hp)

theorem getString_complete (b : Board) (st : Stone) (hst : st ∈ b.Stones)
    (hc : st.Color ≠ "") (h1 : allInbounds b) (h2 : distinctCoords b) :
    ∀ t, Reach b st t → t ∈ getString b st := by
  obtain ⟨hsound, hnd, hseed, hclo⟩ := getString_sound b st hst hc
  exact closed_set_complete b st h1 h2 _ hseed (fun p hp => (hsound p hp).1) hclo

/-! ### Components, canonical sorting, and the board partition -/

theorem Reach_symm {b : Board} {s t : Stone} (h : Reach b s t) : Reach b t s :=
  Relation.ReflTransGen.symmetric (fun _ _ hadj => stoneAdj_symm hadj) h

theorem getString_mem_iff (b : Board) (st : Stone) (hst : st ∈ b.Stones)
    (hc : st.Color ≠ "") (h1 : allInbounds b) (h2 : distinctCoords b) :
    ∀ t, t ∈ getString b st ↔ Reach b st t := by
  intro t
  constructor
  · intro ht
    exact ((getString_sound b st hst hc).1 t ht).2.2
  · exact getString_complete b st hst hc h1 h2 t

theorem getString_eq_of_shared (b : Board) (h1 : allInbounds b)
    (h2 : distinctCoords b) {s₁ s₂ t : Stone} (hs₁ : s₁ ∈ b.Stones)
    (hs₂ : s₂ ∈ b.Stones) (hc₁ : s₁.Color ≠ "") (hc₂ : s₂.Color ≠ "")
    (ht₁ : t ∈ getString b s₁) (ht₂ : t ∈ getString b s₂) :
    ∀ u, u ∈ getString b s₁ ↔ u ∈ getString b s₂ := by
  intro u
  have hr₁ : Reach b s₁ t := (getString_mem_iff b s₁ hs₁ hc₁ h1 h2 t).mp ht₁
  have hr₂ : Reach b s₂ t := (getString_mem_iff b s₂ hs₂ hc₂ h1 h2 t).mp ht₂
  rw [getString_mem_iff b s₁ hs₁ hc₁ h1 h2 u,
    getString_mem_iff b s₂ hs₂ hc₂ h1 h2 u]
  constructor
  · intro hr
    exact Relation.ReflTransGen.trans hr₂ (Relation.ReflTransGen.trans (Reach_symm hr₁) hr)
  · intro hr
    exact Relation.ReflTransGen.trans hr₁ (Relation.ReflTransGen.trans (Reach_symm hr₂) hr)

theorem sorted_eq_of_perm_of_nodup_coords : ∀ l₁ l₂ : GoString,
    l₁.Perm l₂ → l₁.Sorted stoneLe → l₂.Sorted stoneLe →
    (l₁.map coordOf).Nodup → l₁ = l₂ := by
  intro l₁
  induction l₁ with
  | nil =>
    intro l₂ hp _ _ _
    exact (List.Perm.nil_eq hp).symm ▸ rfl
  | cons a t₁ ih =>
    intro l₂ hp hs₁ hs₂ hnd
    match l₂ with
    | [] => exact absurd hp.symm (by simp)
    | c :: t₂ =>
      have hac : a = c := by
        by_contra hne
        have hat₂ : a ∈ t₂ := by
          have := hp.mem_iff.mp (List.mem_cons_self a t₁)
          rcases List.mem_cons.mp this with h | h
          · exact absurd h hne
          · exact h
        have hct₁ : c ∈ t₁ := by
          have := hp.mem_iff.mpr (List.mem_cons_self c t₂)
          rcases List.mem_cons.mp this with h | h
          · exact absurd h.symm hne
          · exact h
        have hle₁ : stoneLe a c := List.rel_of_sorted_cons hs₁ c hct₁
        have hle₂ : stoneLe c a := List.rel_of_sorted_cons hs₂ a hat₂
        have hcoord : coordOf a = coordOf c := by
          unfold stoneLe at hle₁ hle₂
          unfold coordOf
          refine Prod.ext ?_ ?_ <;> simp <;> omega
        simp only [List.map_cons, List.nodup_cons] at hnd
        exact hnd.1 (List.mem_map.mpr ⟨c, hct₁, hcoord.symm⟩)
      subst hac
      have hpt : t₁.Perm t₂ := hp.cons_inv
      simp only [List.map_cons, List.nodup_cons] at hnd
      rw [ih t₂ hpt (List.sorted_cons.mp hs₁).2 (List.sorted_cons.mp hs₂).2 hnd.2]

theorem sortString_perm (str : GoString) : (sortString str).Perm str :=
  List.perm_insertionSort stoneLe str

theorem sortString_sorted (str : GoString) : (sortString str).Sorted stoneLe :=
  List.sorted_insertionSort stoneLe str

theorem sortString_eq_of_perm {l₁ l₂ : GoString} (hp : l₁.Perm l₂)
    (hnd : (l₁.map coordOf).Nodup) : sortString l₁ = sortString l₂ := by
  apply sorted_eq_of_perm_of_nodup_coords
  · exact (sortString_perm l₁).trans (hp.trans (sortString_perm l₂).symm)
  · exact sortString_sorted l₁
  · exact sortString_sorted l₂
  · exact (List.Perm.map coordOf (sortString_perm l₁)).nodup_iff.mpr hnd

theorem getStringsAux_sub (b : Board) : ∀ l acc,
    ∀ S ∈ getStringsAux b l acc,
      S ∈ acc ∨ ∃ s ∈ l, S = sortString (getString b s) := by
  intro l
  induction l with
  | nil => intro acc S hS; exact Or.inl hS
  | cons a rest ih =>
    intro acc S hS
    simp only [getStringsAux] at hS
    rcases ih _ S hS with h | ⟨u, hu, rfl⟩
    · split at h
      · exact Or.inl h
      · rcases List.mem_append.mp h with h | h
        · exact Or.inl h
        · exact Or.inr ⟨a, List.mem_cons_self a rest, List.mem_singleton.mp h⟩
    · exact Or.inr ⟨u, List.mem_cons_of_mem a hu, rfl⟩

theorem getStringsAux_acc_sub (b : Board) : ∀ l acc A, A ∈ acc →
    A ∈ getStringsAux b l acc := by
  intro l
  induction l with
  | nil => intro acc A hA; exact hA
  | cons a rest ih =>
    intro acc A hA
    simp only [getStringsAux]
    apply ih
    split
    · exact hA
    · exact List.mem_append_left _ hA

theorem getStringsAux_mem (b : Board) : ∀ l acc, ∀ s ∈ l,
    sortString (getString b s) ∈ getStringsAux b l acc := by
  intro l
  induction l with
  | nil => simp
  | cons a rest ih =>
    intro acc s hs
    rcases List.mem_cons.mp hs with rfl | hs
    · simp only [getStringsAux]
      apply getStringsAux_acc_sub
      split
      · next h => exact (containsString_iff _ _).mp h
      · exact List.mem_append_right _ (List.mem_singleton_self _)
    · simp only [getStringsAux]
      exact ih _ s hs

theorem mem_getStrings_iff (b : Board) (S : GoString) :
    S ∈ getStrings b ↔ ∃ s ∈ b.Stones, S = sortString (getString b s) := by
  constructor
  · intro hS
    rcases getStringsAux_sub b b.Stones [] S hS with h | h
    · simp at h
    · exact h
  · rintro ⟨s, hs, rfl⟩
    exact getStringsAux_mem b b.Stones [] s hs

theorem getString_coords_nodup (b : Board) (h2 : distinctCoords b)
    (h3 : allOccupied b) {s : Stone} (hs : s ∈ b.Stones) :
    ((getString b s).map coordOf).Nodup := by
  obtain ⟨hsound, hnd, _, _⟩ := getString_sound b s hs (h3 s hs)
  refine hnd.map_on ?_
  intro x hx y hy hxy
  exact List.inj_on_of_nodup_map h2 ((hsound x hx).2.1) ((hsound y hy).2.1) hxy

theorem getStrings_partition (b : Board) (h1 : allInbounds b)
    (h2 : distinctCoords b) (h3 : allOccupied b) :
    (∀ t : Stone, t ∈ b.Stones ↔ ∃ S ∈ getStrings b, t ∈ S) ∧
      ∀ S₁ ∈ getStrings b, ∀ S₂ ∈ getStrings b, ∀ s₁ ∈ S₁, ∀ s₂ ∈ S₂,
        coordOf s₁ = coordOf s₂ → S₁ = S₂ := by
  constructor
  · intro t
    constructor
    · intro ht
      refine ⟨sortString (getString b t), getStringsAux_mem b b.Stones [] t ht, ?_⟩
      exact (sortString_perm _).mem_iff.mpr
        (getString_sound b t ht (h3 t ht)).2.2.1
    · rintro ⟨S, hS, htS⟩
      rcases (mem_getStrings_iff b S).mp hS with ⟨s, hs, rfl⟩
      have := (sortString_perm _).mem_iff.mp htS
      exact ((getString_sound b s hs (h3 s hs)).1 t this).2.1
  · intro S₁ hS₁ S₂ hS₂ s₁ hs₁ s₂ hs₂ hco
    rcases (mem_getStrings_iff b S₁).mp hS₁ with ⟨a₁, ha₁, rfl⟩
    rcases (mem_getStrings_iff b S₂).mp hS₂ with ⟨a₂, ha₂, rfl⟩
    have hm₁ : s₁ ∈ getString b a₁ := (sortString_perm _).mem_iff.mp hs₁
    have hm₂ : s₂ ∈ getString b a₂ := (sortString_perm _).mem_iff.mp hs₂
    have hst₁ : s₁ ∈ b.Stones :=
      ((getString_sound b a₁ ha₁ (h3 a₁ ha₁)).1 s₁ hm₁).2.1
    have hst₂ : s₂ ∈ b.Stones :=
      ((getString_sound b a₂ ha₂ (h3 a₂ ha₂)).1 s₂ hm₂).2.1
    have hseq : s₁ = s₂ := List.inj_on_of_nodup_map h2 hst₁ hst₂ hco
    subst hseq
    have hiff := getString_eq_of_shared b h1 h2 ha₁ ha₂ (h3 a₁ ha₁) (h3 a₂ ha₂)
      hm₁ hm₂
    have hperm : (getString b a₁).Perm (getString b a₂) :=
      (List.perm_ext_iff_of_nodup
        (getString_sound b a₁ ha₁ (h3 a₁ ha₁)).2.1
        (getString_sound b a₂ ha₂ (h3 a₂ ha₂)).2.1).mpr hiff
    exact sortString_eq_of_perm hperm (getString_coords_nodup b h2 h3 ha₁)

/-! ### Liberty counting -/

theorem addLiberty_mem : ∀ (nearby libs : List Stone) (m : Stone),
    m ∈ addLiberty nearby libs ↔ m ∈ libs ∨ (m.Color = "" ∧ m ∈ nearby) := by
  intro nearby
  induction nearby with
  | nil =>
    intro libs m
    simp [addLiberty]
  | cons ns rest ih =>
    intro libs m
    rw [addLiberty]
    split
    · next h =>
      rw [ih]
      simp only [List.mem_append, List.mem_cons, List.not_mem_nil, or_false]
      constructor
      · rintro ((hm | rfl) | ⟨hc, hr⟩)
        · exact Or.inl hm
        · exact Or.inr ⟨h.1, Or.inl rfl⟩
        · exact Or.inr ⟨hc, Or.inr hr⟩
      · rintro (hm | ⟨hc, rfl | hr⟩)
        · exact Or.inl (Or.inl hm)
        · exact Or.inl (Or.inr rfl)
        · exact Or.inr ⟨hc, hr⟩
    · next h =>
      rw [ih]
      rw [Classical.not_and_iff_or_not_not] at h
      simp only [List.mem_cons]
      constructor
      · rintro (hm | ⟨hc, hr⟩)
        · exact Or.inl hm
        · exact Or.inr ⟨hc, Or.inr hr⟩
      · rintro (hm | ⟨hc, rfl | hr⟩)
        · exact Or.inl hm
        · rcases h with h | h
          · exact absurd hc h
          · rw [Bool.not_eq_false] at h
            exact Or.inl ((contains_iff libs m).mp h)
        · exact Or.inr ⟨hc, hr⟩

theorem addLiberty_nodup : ∀ (nearby libs : List Stone), libs.Nodup →
    (addLiberty nearby libs).Nodup := by
  intro nearby
  induction nearby with
  | nil => intro libs h; exact h
  | cons ns rest ih =>
    intro libs h
    rw [addLiberty]
    split
    · next hg =>
      apply ih
      rw [List.nodup_append]
      refine ⟨h, List.nodup_singleton ns, ?_⟩
      intro x hx hx'
      rw [List.mem_singleton.mp hx'] at hx
      exact (contains_false_iff libs ns).mp hg.2 hx
    · exact ih libs h

theorem findLibertiesAux_mem (b : Board) : ∀ (str : GoString)
    (libs : List Stone) (m : Stone),
    m ∈ findLibertiesAux b str libs ↔
      m ∈ libs ∨ (m.Color = "" ∧ ∃ s ∈ str, m ∈ getNearby b s) := by
  intro str
  induction str with
  | nil =>
    intro libs m
    simp [findLibertiesAux]
  | cons s rest ih =>
    intro libs m
    rw [findLibertiesAux, ih, addLiberty_mem]
    simp only [List.mem_cons]
    constructor
    · rintro ((hm | ⟨hc, hn⟩) | ⟨hc, u, hu, hn⟩)
      · exact Or.inl hm
      · exact Or.inr ⟨hc, s, Or.inl rfl, hn⟩
      · exact Or.inr ⟨hc, u, Or.inr hu, hn⟩
    · rintro (hm | ⟨hc, u, rfl | hu, hn⟩)
      · exact Or.inl (Or.inl hm)
      · exact Or.inl (Or.inr ⟨hc, hn⟩)
      · exact Or.inr ⟨hc, u, hu, hn⟩

theorem findLibertiesAux_nodup (b : Board) : ∀ (str : GoString)
    (libs : List Stone), libs.Nodup → (findLibertiesAux b str libs).Nodup := by
  intro str
  induction str with
  | nil => intro libs h; exact h
  | cons s rest ih =>
    intro libs h
    rw [findLibertiesAux]
    exact ih _ (addLiberty_nodup _ _ h)

theorem findLiberties_mem (b : Board) (str : GoString) (m : Stone) :
    m ∈ (findLiberties b str).1 ↔
      m.Color = "" ∧ ∃ s ∈ str, m ∈ getNearby b s := by
  unfold findLiberties
  rw [findLibertiesAux_mem]
  simp

theorem findLiberties_nodup (b : Board) (str : GoString) :
    (findLiberties b str).1.Nodup :=
  findLibertiesAux_nodup b str [] List.nodup_nil

theorem findLiberties_coords_nodup (b : Board) (str : GoString) :
    ((findLiberties b str).1.map coordOf).Nodup := by
  refine (findLiberties_nodup b str).map_on ?_
  intro x hx y hy hxy
  have hx' := (findLiberties_mem b str x).mp hx
  have hy' := (findLiberties_mem b str y).mp hy
  rcases hx'.2 with ⟨s, _, hxs⟩
  rcases hy'.2 with ⟨u, _, hyu⟩
  calc x = resolveAt b.Stones (coordOf x) := getNearby_resolved hxs
    _ = resolveAt b.Stones (coordOf y) := by rw [hxy]
    _ = y := (getNearby_resolved hyu).symm

theorem findLiberties_coords_toFinset (b : Board) (str : GoString) :
    ((findLiberties b str).1.map coordOf).toFinset = libertyFinset b str := by
  ext c
  simp only [List.mem_toFinset, List.mem_map, libertyFinset, List.mem_flatMap,
    List.mem_filter]
  constructor
  · rintro ⟨m, hm, rfl⟩
    rw [findLiberties_mem] at hm
    rcases hm with ⟨hcol, s, hs, hmn⟩
    rcases mem_getNearby.mp hmn with ⟨c', hc', hin, heq⟩
    subst heq
    rw [resolveAt_coordOf]
    refine ⟨s, hs, hc', ?_⟩
    simp only [Bool.and_eq_true, beq_iff_eq]
    exact ⟨hin, hcol⟩
  · rintro ⟨s, hs, hcmem, hfilter⟩
    simp only [Bool.and_eq_true, beq_iff_eq] at hfilter
    refine ⟨resolveAt b.Stones c, ?_, resolveAt_coordOf _ _⟩
    rw [findLiberties_mem]
    exact ⟨hfilter.2, s, hs, mem_getNearby.mpr ⟨c, hcmem, hfilter.1, rfl⟩⟩

theorem findLiberties_count (b : Board) (str : GoString) :
    (findLiberties b str).2 = (libertyFinset b str).card := by
  rw [← findLiberties_coords_toFinset,
    List.toFinset_card_of_nodup (findLiberties_coords_nodup b str),
    List.length_map]
  rfl

/-! ### Resolution under board edits, and liberty monotonicity -/

theorem resolvedColor_cons (h : Stone) (t : List Stone) (c : Int × Int) :
    resolvedColor (h :: t) c =
      if h.X = c.1 ∧ h.Y = c.2 then h.Color else resolvedColor t c := by
  by_cases hco : h.X = c.1 ∧ h.Y = c.2
  · rw [if_pos hco]
    unfold resolvedColor resolveAt resolveStone find
    rw [List.find?_cons_of_pos]
    · rfl
    · simp only [Bool.and_eq_true, beq_iff_eq]
      exact hco
  · rw [if_neg hco]
    unfold resolvedColor resolveAt resolveStone find
    rw [List.find?_cons_of_neg]
    simp only [Bool.and_eq_true, beq_iff_eq]
    exact hco

theorem resolvedColor_erase {l : List Stone} {a : Stone} (ha : a.Color ≠ "")
    (c : Int × Int) (h : resolvedColor l c = "") :
    resolvedColor (l.erase a) c = "" := by
  induction l with
  | nil => exact h
  | cons hd t ih =>
    rw [List.erase_cons]
    rw [resolvedColor_cons] at h
    split
    · next heq =>
      have hda : hd = a := by simpa using heq
      by_cases hco : hd.X = c.1 ∧ hd.Y = c.2
      · rw [if_pos hco] at h
        rw [hda] at h
        exact absurd h ha
      · rwa [if_neg hco] at h
    · rw [resolvedColor_cons]
      by_cases hco : hd.X = c.1 ∧ hd.Y = c.2
      · rw [if_pos hco] at h ⊢
        exact h
      · rw [if_neg hco] at h ⊢
        exact ih h

theorem resolvedColor_append {l : List Stone} {a : Stone} (c : Int × Int)
    (h : resolvedColor (l ++ [a]) c = "") : resolvedColor l c = "" := by
  induction l with
  | nil => rfl
  | cons hd t ih =>
    rw [List.cons_append, resolvedColor_cons] at h
    rw [resolvedColor_cons]
    by_cases hco : hd.X = c.1 ∧ hd.Y = c.2
    · rw [if_pos hco] at h ⊢
      exact h
    · rw [if_neg hco] at h ⊢
      exact ih h

theorem libertyFinset_erase_sub (b : Board) (str : GoString) {a : Stone}
    (ha : a.Color ≠ "") :
    libertyFinset b str ⊆ libertyFinset (removeStoneFromBoard b a) str := by
  intro c hc
  unfold libertyFinset removeStoneFromBoard at *
  simp only [List.mem_toFinset, List.mem_flatMap, List.mem_filter] at *
  rcases hc with ⟨s, hs, hmem, hf⟩
  simp only [Bool.and_eq_true, beq_iff_eq] at hf
  refine ⟨s, hs, hmem, ?_⟩
  simp only [Bool.and_eq_true, beq_iff_eq]
  exact ⟨hf.1, resolvedColor_erase ha c hf.2⟩

theorem libertyFinset_append_sub (b : Board) (str : GoString) (a : Stone) :
    libertyFinset (addStoneToBoard b a) str ⊆ libertyFinset b str := by
  intro c hc
  unfold libertyFinset addStoneToBoard at *
  simp only [List.mem_toFinset, List.mem_flatMap, List.mem_filter] at *
  rcases hc with ⟨s, hs, hmem, hf⟩
  simp only [Bool.and_eq_true, beq_iff_eq] at hf
  refine ⟨s, hs, hmem, ?_⟩
  simp only [Bool.and_eq_true, beq_iff_eq]
  exact ⟨hf.1, resolvedColor_append c hf.2⟩

/-! ### Coordinate-keyed visited tracking -/

instance (b : Board) (s t : Stone) : Decidable (stoneAdj b s t) := by
  unfold stoneAdj; infer_instance

theorem containsCoord_iff (l : List Stone) (x : Stone) :
    containsCoord l x = true ↔ ∃ v ∈ l, v.X = x.X ∧ v.Y = x.Y := by
  simp [containsCoord, List.any_eq_true, Bool.and_eq_true, beq_iff_eq]

theorem getStringCoordAux_eq (b : Board) (st : Stone) : ∀ fuel acc str,
    (∀ m ∈ str, m.Color = st.Color) →
    getStringCoordAux b st fuel acc str = getStringAux b st fuel acc str := by
  intro fuel
  induction fuel with
  | zero =>
    intro acc str hinv
    match acc with
    | [] => rfl
    | s :: rest => rfl
  | succ n ih =>
    intro acc str hinv
    match acc with
    | [] => rfl
    | s :: rest =>
      rw [getStringCoordAux, getStringAux]
      by_cases hcol : s.Color = st.Color
      · have hiff : containsCoord str s = contains str s := by
          by_cases hmem : s ∈ str
          · rw [(contains_iff str s).mpr hmem,
              (containsCoord_iff str s).mpr ⟨s, hmem, rfl, rfl⟩]
          · have h1 : contains str s = false := (contains_false_iff str s).mpr hmem
            have h2 : containsCoord str s = false := by
              rw [← Bool.not_eq_true, containsCoord_iff]
              rintro ⟨v, hv, hvx, hvy⟩
              have hvs : v = s := Stone.ext hvx hvy ((hinv v hv).trans hcol.symm)
              exact hmem (hvs ▸ hv)
            rw [h1, h2]
        rw [hiff]
        split
        · apply ih
          intro m hm
          rcases List.mem_append.mp hm with hm | hm
          · exact hinv m hm
          · rw [List.mem_singleton.mp hm]
            exact hcol
        · exact ih rest str hinv
      · rw [if_neg (by tauto), if_neg (by tauto)]
        exact ih rest str hinv

/-! ### The Run entry point -/

theorem capturedStrings_cond (b : Board) (st : Stone) :
    ((capturedStrings b).length = 1 ∧
        contains (capturedStrings b).headI st = true) ↔
      ∃ S, capturedStrings b = [S] ∧ contains S st = true := by
  constructor
  · rintro ⟨hlen, hcon⟩
    rcases List.length_eq_one.mp hlen with ⟨S, hS⟩
    refine ⟨S, hS, ?_⟩
    rw [hS] at hcon
    exact hcon
  · rintro ⟨S, hS, hcon⟩
    rw [hS]
    exact ⟨rfl, hcon⟩

/-- C1: `Run` reports the self-capture error exactly when the zero-liberty
Strings of the post-placement board form a singleton whose String contains
the placed stone, and in the error case the returned removal list is
empty. -/
theorem C1_run_self_capture (b : Board) (st : Stone) :
    ((Run b st).2 = some GoError.selfCapture ↔
      ∃ S, capturedStrings b = [S] ∧ contains S st = true) ∧
    ((Run b st).2 = some GoError.selfCapture → (Run b st).1 = []) := by
  simp only [Run]
  split
  · next hguard =>
    exact ⟨iff_of_true rfl ((capturedStrings_cond b st).mp hguard),
      fun _ => rfl⟩
  · next hguard =>
    split
    · exact ⟨iff_of_false (by simp)
        (fun h => hguard ((capturedStrings_cond b st).mpr h)), by simp⟩
    · exact ⟨iff_of_false (by simp)
        (fun h => hguard ((capturedStrings_cond b st).mpr h)), by simp⟩

/-- Witness for C1 at spec scenario 2: black stones at (0,1) and (1,0),
white plays the corner (0,0) and captures nothing. -/
theorem C1_run_self_capture_witness :
    ((Run ⟨2, [⟨0, 0, "a"⟩, ⟨0, 1, "b"⟩, ⟨1, 0, "b"⟩]⟩ ⟨0, 0, "a"⟩).2 =
        some GoError.selfCapture ↔
      ∃ S, capturedStrings ⟨2, [⟨0, 0, "a"⟩, ⟨0, 1, "b"⟩, ⟨1, 0, "b"⟩]⟩ = [S] ∧
        contains S ⟨0, 0, "a"⟩ = true) ∧
    (Run ⟨2, [⟨0, 0, "a"⟩, ⟨0, 1, "b"⟩, ⟨1, 0, "b"⟩]⟩ ⟨0, 0, "a"⟩).1 = [] :=
  ⟨(C1_run_self_capture ⟨2, [⟨0, 0, "a"⟩, ⟨0, 1, "b"⟩, ⟨1, 0, "b"⟩]⟩ ⟨0, 0, "a"⟩).1,
   (C1_run_self_capture ⟨2, [⟨0, 0, "a"⟩, ⟨0, 1, "b"⟩, ⟨1, 0, "b"⟩]⟩ ⟨0, 0, "a"⟩).2
     (by decide)⟩

/-- C2: when more than one String has zero liberties, `Run` returns exactly
the zero-liberty Strings not containing the placed stone, with no error. -/
theorem C2_run_opponent_capture (b : Board) (st : Stone)
    (h : (capturedStrings b).length > 1) :
    (Run b st).1 =
      (capturedStrings b).filter (fun str => contains str st = false) ∧
    (Run b st).2 = none := by
  simp only [Run]
  rw [if_neg fun hc =>
    absurd hc.1 (by omega : ¬(capturedStrings b).length = 1), if_pos h]
  exact ⟨rfl, rfl⟩

/-- Witness for C2 on a full 2-by-2 board: four zero-liberty singleton
Strings, of which the one containing the placed stone is filtered out. -/
theorem C2_run_opponent_capture_witness :
    (capturedStrings ⟨2, [⟨0, 0, "b"⟩, ⟨0, 1, "a"⟩, ⟨1, 0, "a"⟩, ⟨1, 1, "b"⟩]⟩).length > 1 ∧
    (Run ⟨2, [⟨0, 0, "b"⟩, ⟨0, 1, "a"⟩, ⟨1, 0, "a"⟩, ⟨1, 1, "b"⟩]⟩ ⟨0, 0, "b"⟩).1 =
      (capturedStrings ⟨2, [⟨0, 0, "b"⟩, ⟨0, 1, "a"⟩, ⟨1, 0, "a"⟩, ⟨1, 1, "b"⟩]⟩).filter
        (fun str => contains str ⟨0, 0, "b"⟩ = false) ∧
    (Run ⟨2, [⟨0, 0, "b"⟩, ⟨0, 1, "a"⟩, ⟨1, 0, "a"⟩, ⟨1, 1, "b"⟩]⟩ ⟨0, 0, "b"⟩).2 = none :=
  ⟨by decide,
   (C2_run_opponent_capture ⟨2, [⟨0, 0, "b"⟩, ⟨0, 1, "a"⟩, ⟨1, 0, "a"⟩, ⟨1, 1, "b"⟩]⟩
     ⟨0, 0, "b"⟩ (by decide)).1,
   (C2_run_opponent_capture ⟨2, [⟨0, 0, "b"⟩, ⟨0, 1, "a"⟩, ⟨1, 0, "a"⟩, ⟨1, 1, "b"⟩]⟩
     ⟨0, 0, "b"⟩ (by decide)).2⟩

/-- C10: whenever `Run` returns without an error, no String in the
returned removal list contains the just-placed stone, across all three
non-error outcomes. -/
theorem C10_ok_excludes_own_string (b : Board) (st : Stone) :
    (Run b st).2 = none → ∀ S ∈ (Run b st).1, contains S st = false := by
  simp only [Run]
  split
  · next hguard =>
    intro h
    simp at h
  · next hguard =>
    split
    · intro _ S hS
      have hm := List.mem_filter.mp hS
      simpa using hm.2
    · next hgt =>
      intro _ S hS
      rcases hcs : capturedStrings b with _ | ⟨S0, rest⟩
      · rw [hcs] at hS
        simp at hS
      · rw [hcs] at hS hguard hgt
        have hrest : rest = [] := by
          have : ¬((S0 :: rest).length > 1) := hgt
          simp only [List.length_cons] at this
          have hr0 : rest.length = 0 := by omega
          exact List.eq_nil_of_length_eq_zero hr0
        subst hrest
        have hS0 : S = S0 := by simpa using hS
        subst hS0
        have hnc : ¬contains S st = true :=
          fun hc => hguard ⟨by simp, by simpa using hc⟩
        simpa using hnc

/-- Witness for C10 at spec scenario 3: black's corner stone is captured;
the returned String does not contain the placed white stone. -/
theorem C10_ok_excludes_own_string_witness :
    (Run ⟨2, [⟨0, 0, "b"⟩, ⟨0, 1, "a"⟩, ⟨1, 0, "a"⟩]⟩ ⟨0, 1, "a"⟩).2 = none ∧
    contains [⟨0, 0, "b"⟩] ⟨0, 1, "a"⟩ = false :=
  ⟨by decide,
   C10_ok_excludes_own_string ⟨2, [⟨0, 0, "b"⟩, ⟨0, 1, "a"⟩, ⟨1, 0, "a"⟩]⟩ ⟨0, 1, "a"⟩
     (by decide) [⟨0, 0, "b"⟩] (by decide)⟩

/-! ### Claims on the liberty counter and neighbor resolver -/

/-- C5: `findLiberties` returns the set of distinct empty points adjacent
to at least one member of the String, records no coordinate twice, and its
count equals that set's cardinality; a String among the board's Strings is
a capture candidate exactly when the count is zero. -/
theorem C5_findLiberties_spec (b : Board) (str : GoString) :
    ((findLiberties b str).1.map coordOf).Nodup ∧
    ((findLiberties b str).1.map coordOf).toFinset = libertyFinset b str ∧
    (findLiberties b str).2 = (libertyFinset b str).card ∧
    ((findLiberties b str).2 = 0 ↔ libertyFinset b str = ∅) ∧
    (str ∈ getStrings b →
      (str ∈ capturedStrings b ↔ (findLiberties b str).2 = 0)) := by
  refine ⟨findLiberties_coords_nodup b str, findLiberties_coords_toFinset b str,
    findLiberties_count b str, ?_, ?_⟩
  · rw [findLiberties_count]
    exact Finset.card_eq_zero
  · intro hmem
    unfold capturedStrings
    rw [List.mem_filter]
    simp [hmem]

/-- Witness for C5 on the one-point board: its single String is in
`getStrings`, and it is a capture candidate exactly because its liberty
count is zero. -/
theorem C5_findLiberties_spec_witness :
    (([⟨0, 0, "b"⟩] : GoString) ∈ getStrings ⟨1, [⟨0, 0, "b"⟩]⟩) ∧
    (([⟨0, 0, "b"⟩] : GoString) ∈ capturedStrings ⟨1, [⟨0, 0, "b"⟩]⟩ ↔
      (findLiberties ⟨1, [⟨0, 0, "b"⟩]⟩ [⟨0, 0, "b"⟩]).2 = 0) :=
  ⟨by decide,
   (C5_findLiberties_spec ⟨1, [⟨0, 0, "b"⟩]⟩ [⟨0, 0, "b"⟩]).2.2.2.2 (by decide)⟩

/-- C6: `getNearby` returns at most four positions, each an in-bounds
orthogonal neighbor of the input, resolved to a board stone at that
coordinate when one exists and otherwise to a synthesized empty stone;
every in-bounds orthogonal neighbor coordinate is represented, and
out-of-bounds neighbors are omitted with no error. -/
theorem C6_getNearby_spec (b : Board) (st : Stone) :
    (getNearby b st).length ≤ 4 ∧
    (∀ t ∈ getNearby b st,
      adjacentC (coordOf st) (coordOf t) ∧ isInbounds b.Size t = true ∧
      ((∃ u ∈ b.Stones, coordOf u = coordOf t) → t ∈ b.Stones) ∧
      ((¬∃ u ∈ b.Stones, coordOf u = coordOf t) → t.Color = "")) ∧
    (∀ c ∈ neighborCoords (coordOf st), inBoundsC b.Size c = true →
      ∃ t ∈ getNearby b st, coordOf t = c) := by
  refine ⟨getNearby_length b st, ?_, ?_⟩
  · intro t ht
    rcases mem_getNearby.mp ht with ⟨c, hcmem, hcin, heq⟩
    refine ⟨getNearby_adjacent ht, getNearby_inbounds ht, ?_, ?_⟩
    · rintro ⟨u, hu, hco⟩
      rcases resolveStone_cases b.Stones ⟨c.1, c.2, ""⟩ with hmem | ⟨heq2, hnone⟩
      · rw [heq]
        exact hmem
      · exfalso
        have hfn := find_eq_none b.Stones ⟨c.1, c.2, ""⟩ hnone u hu
        rw [heq, resolveAt_coordOf] at hco
        exact hfn ⟨congrArg Prod.fst hco, congrArg Prod.snd hco⟩
    · intro hne
      rcases resolveStone_cases b.Stones ⟨c.1, c.2, ""⟩ with hmem | ⟨heq2, _⟩
      · exact absurd ⟨t, by rw [heq]; exact hmem, rfl⟩ hne
      · rw [heq]
        unfold resolveAt
        rw [heq2]
  · intro c hc hin
    exact ⟨resolveAt b.Stones c, mem_getNearby.mpr ⟨c, hc, hin, rfl⟩,
      resolveAt_coordOf b.Stones c⟩

/-- Witness for C6: the neighbor below (0,1) resolves to the black board
stone at (0,0), and all instantiated side conditions evaluate. -/
theorem C6_getNearby_spec_witness :
    (getNearby ⟨2, [⟨0, 0, "b"⟩]⟩ ⟨0, 1, "a"⟩).length ≤ 4 ∧
    (⟨0, 0, "b"⟩ : Stone) ∈ (⟨2, [⟨0, 0, "b"⟩]⟩ : Board).Stones ∧
    ∃ t ∈ getNearby ⟨2, [⟨0, 0, "b"⟩]⟩ ⟨0, 1, "a"⟩, coordOf t = ((0 : Int), (0 : Int)) :=
  ⟨(C6_getNearby_spec ⟨2, [⟨0, 0, "b"⟩]⟩ ⟨0, 1, "a"⟩).1,
   ((C6_getNearby_spec ⟨2, [⟨0, 0, "b"⟩]⟩ ⟨0, 1, "a"⟩).2.1 ⟨0, 0, "b"⟩
     (by decide)).2.2.1 (by decide),
   (C6_getNearby_spec ⟨2, [⟨0, 0, "b"⟩]⟩ ⟨0, 1, "a"⟩).2.2 ((0 : Int), (0 : Int))
     (by decide) (by decide)⟩

/-- C7: removing an occupied stone adjacent to a String cannot lower its
liberty count, and adding a stone at an empty in-bounds point adjacent to
it cannot raise its liberty count. -/
theorem C7_liberty_monotonicity (b : Board) (str : GoString)
    (removed added : Stone) :
    (removed ∈ b.Stones → removed.Color ≠ "" →
      (∃ s ∈ str, adjacentC (coordOf removed) (coordOf s)) →
      (findLiberties b str).2 ≤
        (findLiberties (removeStoneFromBoard b removed) str).2) ∧
    (added.Color ≠ "" → inBoundsC b.Size (coordOf added) = true →
      resolvedColor b.Stones (coordOf added) = "" →
      (∃ s ∈ str, adjacentC (coordOf added) (coordOf s)) →
      (findLiberties (addStoneToBoard b added) str).2 ≤
        (findLiberties b str).2) := by
  constructor
  · intro _ hcol _
    rw [findLiberties_count, findLiberties_count]
    exact Finset.card_le_card (libertyFinset_erase_sub b str hcol)
  · intro _ _ _ _
    rw [findLiberties_count, findLiberties_count]
    exact Finset.card_le_card (libertyFinset_append_sub b str added)

/-- Witness for C7: a black stone at (1,1) with a white neighbor at
(1,2); remove that neighbor, or add a white stone at the empty adjacent
point (2,1). -/
theorem C7_liberty_monotonicity_witness :
    ((findLiberties ⟨3, [⟨1, 1, "b"⟩, ⟨1, 2, "a"⟩]⟩ [⟨1, 1, "b"⟩]).2 ≤
      (findLiberties (removeStoneFromBoard ⟨3, [⟨1, 1, "b"⟩, ⟨1, 2, "a"⟩]⟩ ⟨1, 2, "a"⟩)
        [⟨1, 1, "b"⟩]).2) ∧
    ((findLiberties (addStoneToBoard ⟨3, [⟨1, 1, "b"⟩, ⟨1, 2, "a"⟩]⟩ ⟨2, 1, "a"⟩)
        [⟨1, 1, "b"⟩]).2 ≤
      (findLiberties ⟨3, [⟨1, 1, "b"⟩, ⟨1, 2, "a"⟩]⟩ [⟨1, 1, "b"⟩]).2) :=
  ⟨(C7_liberty_monotonicity ⟨3, [⟨1, 1, "b"⟩, ⟨1, 2, "a"⟩]⟩ [⟨1, 1, "b"⟩]
      ⟨1, 2, "a"⟩ ⟨2, 1, "a"⟩).1 (by decide) (by decide) (by decide),
   (C7_liberty_monotonicity ⟨3, [⟨1, 1, "b"⟩, ⟨1, 2, "a"⟩]⟩ [⟨1, 1, "b"⟩]
      ⟨1, 2, "a"⟩ ⟨2, 1, "a"⟩).2 (by decide) (by decide) (by decide) (by decide)⟩

/-! ### Claims on the flood fill -/

/-- C8: visited tracking in the flood fill behaves as if keyed on
coordinates alone: replacing the structural membership test with the
coordinate-keyed one yields the same String for every board and seed. -/
theorem C8_coordinate_visited_tracking (b : Board) (st : Stone) :
    getStringCoord b st = getString b st := by
  unfold getStringCoord getString
  rw [getStringCoordAux_eq b st (getStringFuel b) [st] [] (by simp)]

/-- C9: the iterative work list of `getString` terminates on every board:
with the stated fuel the loop drains its work list and returns. -/
theorem C9_getString_terminates (b : Board) (st : Stone) :
    ∃ res, getStringAux b st (getStringFuel b) [st] [] = some res :=
  ⟨getString b st, getString_spec b st⟩

/-! ### Claims on the board partition and the group detector -/

/-- C3 counterexample: a board of occupied stones with pairwise distinct
coordinates, one of them out of bounds, on which two structurally distinct
returned Strings share the coordinate (4,0): bounds filtering makes
neighbor resolution asymmetric at the edge. -/
theorem C3_counterexample :
    distinctCoords ⟨5, [⟨5, 0, "b"⟩, ⟨4, 0, "b"⟩]⟩ ∧
    allOccupied ⟨5, [⟨5, 0, "b"⟩, ⟨4, 0, "b"⟩]⟩ ∧
    ∃ S₁ ∈ getStrings ⟨5, [⟨5, 0, "b"⟩, ⟨4, 0, "b"⟩]⟩,
      ∃ S₂ ∈ getStrings ⟨5, [⟨5, 0, "b"⟩, ⟨4, 0, "b"⟩]⟩,
        S₁ ≠ S₂ ∧ ∃ s₁ ∈ S₁, ∃ s₂ ∈ S₂, coordOf s₁ = coordOf s₂ := by
  decide

/-- C3 (amended): on a board whose stones are in bounds, occupied, and at
pairwise distinct coordinates, the Strings returned by `getStrings` cover
exactly the board's stones and no coordinate lies in two distinct returned
Strings. -/
theorem C3_getStrings_partition (b : Board) (h1 : allInbounds b)
    (h2 : distinctCoords b) (h3 : allOccupied b) :
    (∀ t : Stone, t ∈ b.Stones ↔ ∃ S ∈ getStrings b, t ∈ S) ∧
      ∀ S₁ ∈ getStrings b, ∀ S₂ ∈ getStrings b, ∀ s₁ ∈ S₁, ∀ s₂ ∈ S₂,
        coordOf s₁ = coordOf s₂ → S₁ = S₂ :=
  getStrings_partition b h1 h2 h3

/-- Witness for C3 on a well-formed board: the stone (0,0) lies in one of
the returned Strings. -/
theorem C3_getStrings_partition_witness :
    ∃ S ∈ getStrings ⟨2, [⟨0, 0, "b"⟩, ⟨0, 1, "b"⟩, ⟨1, 0, "a"⟩]⟩,
      (⟨0, 0, "b"⟩ : Stone) ∈ S :=
  ((C3_getStrings_partition ⟨2, [⟨0, 0, "b"⟩, ⟨0, 1, "b"⟩, ⟨1, 0, "a"⟩]⟩
    (by decide) (by decide) (by decide)).1 ⟨0, 0, "b"⟩).mp (by decide)

/-- C4 counterexample: with an out-of-bounds stone at (5,0) the stone
(5,0) is joined to the occupied in-bounds seed (4,0) by one adjacent
same-colored link, yet the flood fill from (4,0) does not collect it. -/
theorem C4_counterexample :
    (⟨4, 0, "b"⟩ : Stone) ∈ (⟨5, [⟨5, 0, "b"⟩, ⟨4, 0, "b"⟩]⟩ : Board).Stones ∧
    (⟨4, 0, "b"⟩ : Stone).Color ≠ "" ∧
    Reach ⟨5, [⟨5, 0, "b"⟩, ⟨4, 0, "b"⟩]⟩ ⟨4, 0, "b"⟩ ⟨5, 0, "b"⟩ ∧
    (⟨5, 0, "b"⟩ : Stone) ∉ getString ⟨5, [⟨5, 0, "b"⟩, ⟨4, 0, "b"⟩]⟩ ⟨4, 0, "b"⟩ :=
  ⟨by decide, by decide, Relation.ReflTransGen.single (by decide), by decide⟩

/-- C4 (amended): on a board whose stones are in bounds and at pairwise
distinct coordinates, the flood fill from an occupied seed on the board
returns the maximal 4-connected same-colored component of the seed: every
member has the seed's color, no two members share a coordinate, every
member is connected to the seed, and every connected stone is a member. -/
theorem C4_getString_component (b : Board) (st : Stone)
    (h1 : allInbounds b) (h2 : distinctCoords b) (hst : st ∈ b.Stones)
    (hc : st.Color ≠ "") :
    (∀ t ∈ getString b st, t.Color = st.Color) ∧
    ((getString b st).map coordOf).Nodup ∧
    (∀ t ∈ getString b st, Reach b st t) ∧
    (∀ t, Reach b st t → t ∈ getString b st) := by
  obtain ⟨hsound, hnd, hseed, hclo⟩ := getString_sound b st hst hc
  refine ⟨fun t ht => (hsound t ht).1, ?_, fun t ht => (hsound t ht).2.2,
    getString_complete b st hst hc h1 h2⟩
  refine hnd.map_on ?_
  intro x hx y hy hxy
  exact List.inj_on_of_nodup_map h2 ((hsound x hx).2.1) ((hsound y hy).2.1) hxy

/-- Witness for C4: on a well-formed board the stone (0,1) joined to the
seed (0,0) by one same-colored link is collected by the flood fill, whose
members have pairwise distinct coordinates. -/
theorem C4_getString_component_witness :
    (⟨0, 1, "b"⟩ : Stone) ∈
      getString ⟨2, [⟨0, 0, "b"⟩, ⟨0, 1, "b"⟩, ⟨1, 0, "a"⟩]⟩ ⟨0, 0, "b"⟩ ∧
    ((getString ⟨2, [⟨0, 0, "b"⟩, ⟨0, 1, "b"⟩, ⟨1, 0, "a"⟩]⟩ ⟨0, 0, "b"⟩).map
      coordOf).Nodup :=
  ⟨(C4_getString_component ⟨2, [⟨0, 0, "b"⟩, ⟨0, 1, "b"⟩, ⟨1, 0, "a"⟩]⟩ ⟨0, 0, "b"⟩
      (by decide) (by decide) (by decide) (by decide)).2.2.2 ⟨0, 1, "b"⟩
      (Relation.ReflTransGen.single (by decide)),
   (C4_getString_component ⟨2, [⟨0, 0, "b"⟩, ⟨0, 1, "b"⟩, ⟨1, 0, "a"⟩]⟩ ⟨0, 0, "b"⟩
      (by decide) (by decide) (by decide) (by decide)).2.1⟩
